import Mathlib

/-!
Shallow embedding of the macd_pipeline data pipeline
(src/data_pipeline/resampler.py, storage.py, backfill.py).

Conventions of the embedding:
* timestamps are naturals; for the tick aggregator they are in
  milliseconds (so that pandas `.floor("1s")` is visible as integer
  flooring), elsewhere in seconds;
* prices and volumes are integers (`Int`), standing for the numeric
  columns of the pandas frames;
* a pandas DataFrame of OHLCV rows is a `List Bar` in row order;
* an HDF5 store key that may be absent is an `Option (List Bar)`;
* pandas `duplicated` / `drop_duplicates(keep = "last")` /
  `sort_values("timestamp")` are modelled by `hasDupTs`,
  `dropDupKeepLast` and `sortByTs` below.
-/

/-- A tick drained from an instrument's queue
(`fyers_websocket` payload fields used by `Resampler.aggregate_ticks`):
last traded price `ltp`, the exchange's cumulative `volume` field and a
millisecond `timestamp`. -/
structure Tick where
  ltp : Int
  volume : Int
  timestamp : Nat
  deriving Repr, DecidableEq

/-- One OHLCV row (a 1-second or resampled bar). `open'` is the pandas
column `open` (renamed because `open` is a Lean keyword). -/
structure Bar where
  timestamp : Nat
  open' : Int
  high : Int
  low : Int
  close : Int
  volume : Int
  deriving Repr, DecidableEq

/-- Integer flooring of a timestamp to a multiple of `tf`
(pandas `.floor("1s")` with `tf = 1000` ms, and the grouping boundary of
`df.resample(timeframe)`). -/
def floorTo (tf t : Nat) : Nat := t / tf * tf

/-- `Resampler.aggregate_ticks`, for one symbol, applied to the list of
ticks drained from its queue this flush cycle (`resampler.py` lines
44-58).  With no ticks nothing is emitted; otherwise one row is built
with `timestamp = df["timestamp"].max().floor("1s")`,
`open = df["ltp"].iloc[0]`, `high = df["ltp"].max()`,
`low = df["ltp"].min()`, `close = df["ltp"].iloc[-1]` and
`volume = df["volume"].iloc[-1]` (the raw last cumulative volume). -/
def aggregateTicks : List Tick → Option Bar
  | [] => none
  | t :: ts =>
    some
      { timestamp := floorTo 1000 ((ts.map Tick.timestamp).foldl max t.timestamp)
        open' := t.ltp
        high := (ts.map Tick.ltp).foldl max t.ltp
        low := (ts.map Tick.ltp).foldl min t.ltp
        close := ((t :: ts).getLast (List.cons_ne_nil t ts)).ltp
        volume := ((t :: ts).getLast (List.cons_ne_nil t ts)).volume }

/-- The tick batch of the C1 scenario: prices `[100, 102, 99, 101]` with
cumulative volumes `[10, 15, 22, 30]`, all within one second. -/
def c1Ticks : List Tick :=
  [⟨100, 10, 0⟩, ⟨102, 15, 100⟩, ⟨99, 22, 200⟩, ⟨101, 30, 300⟩]

/-- Insert a boundary into an ascending, duplicate-free list of group
boundaries (how a pandas `resample` index is ordered and deduplicated). -/
def insertKey (n : Nat) : List Nat → List Nat
  | [] => [n]
  | x :: xs =>
    if n = x then x :: xs
    else if n < x then n :: x :: xs
    else x :: insertKey n xs

/-- The ascending, duplicate-free list of group boundaries of a source
frame: pandas `df.resample(tf)` groups rows by `floorTo tf timestamp`
and, after `.dropna()`, keeps exactly the non-empty groups in ascending
order. -/
def sortedKeys (l : List Nat) : List Nat := l.foldr insertKey []

/-- The aggregation `{open: first, high: max, low: min, close: last,
volume: sum}` of `resampler.py` lines 78-84, applied to the rows of one
group (in row order).  The `[]` case is unreachable: `.dropna()` has
removed empty groups. -/
def aggGroup (b : Nat) : List Bar → Bar
  | [] => ⟨b, 0, 0, 0, 0, 0⟩
  | x :: xs =>
    { timestamp := b
      open' := x.open'
      high := (xs.map Bar.high).foldl max x.high
      low := (xs.map Bar.low).foldl min x.low
      close := ((x :: xs).getLast (List.cons_ne_nil x xs)).close
      volume := (xs.map Bar.volume).foldl (· + ·) x.volume }

/-- `Resampler.resample_to_timeframe` (`resampler.py` lines 68-91) as a
function of the in-memory 1-second frame `src` and the target timeframe
duration `tf` (same time unit as the bar timestamps): group by aligned
boundary, aggregate each non-empty group, return the groups ascending.
An empty source returns an empty frame (the early-return branch). -/
def resampleToTimeframe (src : List Bar) (tf : Nat) : List Bar :=
  (sortedKeys (src.map fun r => floorTo tf r.timestamp)).map fun b =>
    aggGroup b (src.filter fun r => floorTo tf r.timestamp == b)

/-- The slice of `Resampler.ohlcv_data[symbol]` touched by one
`resample_to_timeframe(symbol, timeframe)` call: the 1-second source
frame and the cached frame of the target timeframe. -/
structure RState where
  oneSec : List Bar
  target : List Bar
  deriving Repr, DecidableEq

/-- One `resample_to_timeframe` call as a state transformer: it returns
the resampled frame and overwrites `ohlcv_data[symbol][timeframe]` with
it (`resampler.py` line 85); the 1-second source is only read.  On an
empty source it returns an empty frame and changes nothing. -/
def resampleStep (st : RState) (tf : Nat) : List Bar × RState :=
  if st.oneSec = [] then ([], st)
  else (resampleToTimeframe st.oneSec tf, ⟨st.oneSec, resampleToTimeframe st.oneSec tf⟩)

/-- Timestamp column of a frame. -/
def tsList (l : List Bar) : List Nat := l.map Bar.timestamp

/-- `df["timestamp"].min()` of a non-empty frame (0 on the empty frame,
which the storage code never reaches on this path). -/
def minTs : List Bar → Nat
  | [] => 0
  | b :: r => (r.map Bar.timestamp).foldl min b.timestamp

/-- `df["timestamp"].max()` of a non-empty frame. -/
def maxTs : List Bar → Nat
  | [] => 0
  | b :: r => (r.map Bar.timestamp).foldl max b.timestamp

/-- `df["timestamp"].duplicated().sum() > 0`: some timestamp occurs in
two different rows. -/
def hasDupTs : List Bar → Bool
  | [] => false
  | b :: r => r.any (fun x => x.timestamp == b.timestamp) || hasDupTs r

/-- `df.drop_duplicates(subset=["timestamp"], keep="last")`: a row is
kept iff no later row has the same timestamp; kept rows stay in order. -/
def dropDupKeepLast : List Bar → List Bar
  | [] => []
  | b :: r =>
    if r.any (fun x => x.timestamp == b.timestamp) then dropDupKeepLast r
    else b :: dropDupKeepLast r

/-- Insertion into a frame sorted by timestamp. -/
def insertByTs (b : Bar) : List Bar → List Bar
  | [] => [b]
  | x :: xs => if b.timestamp ≤ x.timestamp then b :: x :: xs else x :: insertByTs b xs

/-- `df.sort_values("timestamp")`.  The storage code only sorts frames
whose timestamps have just been made unique, so the sort order is fully
determined and any comparison sort agrees with this insertion sort. -/
def sortByTs (l : List Bar) : List Bar := l.foldr insertByTs []

/-- The else-branch of `Storage.save_historical` (`storage.py` lines
72-81): concatenate existing and incoming rows; only when a duplicate
timestamp is present, drop duplicates keeping the last (incoming) row
and sort ascending.  With no duplicate the concatenation is stored
unsorted. -/
def mergeElse (ex inc : List Bar) : List Bar :=
  let combined := ex ++ inc
  if hasDupTs combined then sortByTs (dropDupKeepLast combined) else combined

/-- `Storage.save_historical` for one `(symbol, timeframe)` key
(`storage.py` lines 22-97), as a function from the stored state of that
key (`none` = key absent) and the incoming frame to the new stored
state.  An empty incoming frame is skipped; with no existing key the
incoming frame is stored as is; when the incoming range covers the
existing range (`df.min() <= existing.min() and df.max() >=
existing.max()`, lines 69-71) the key is overwritten with the incoming
frame alone; otherwise the else-branch merge runs.  The source's
"empty after deduplication" early return (line 79) is unreachable here
because the incoming frame is non-empty. -/
def saveHistorical (existing : Option (List Bar)) (inc : List Bar) : Option (List Bar) :=
  if inc = [] then existing
  else
    match existing with
    | none => some inc
    | some ex =>
      match ex with
      | [] => some (mergeElse [] inc)
      | e0 :: er =>
        if minTs inc ≤ minTs (e0 :: er) ∧ maxTs (e0 :: er) ≤ maxTs inc then some inc
        else some (mergeElse (e0 :: er) inc)

/-- `Storage.load_historical` for one key: the stored frame, or an
empty frame when the key (or file) is absent. -/
def loadHistorical (st : Option (List Bar)) : List Bar := st.getD []

/-- The general union-deduplicate-sort merge of the spec's Bar Store
`merge` (and of `save_historical`'s else-branch when a collision
exists): union keyed by timestamp, incoming value wins, ascending.
This is the reference path the fast overwrite path is compared to. -/
def mergePath (ex inc : List Bar) : List Bar := sortByTs (dropDupKeepLast (ex ++ inc))

/-- A gap `{start, end}` as produced by `Backfill.check_data_gaps`
(timestamps in seconds rather than the source's formatted strings). -/
abbrev Gap := Nat × Nat

/-- The step starts visited by the `while current_time < end_ts` loop of
`check_data_gaps` (`backfill.py` lines 80-88): `s, s+dur, s+2*dur, ...`
strictly below `e`.  The first argument is fuel; `e - s` is enough
whenever `0 < dur`, and the source loop itself terminates only then. -/
def stepStarts : Nat → Nat → Nat → Nat → List Nat
  | 0, _, _, _ => []
  | f + 1, cur, e, dur => if cur < e then cur :: stepStarts f (cur + dur) e dur else []

/-- The gap-collecting loop of `check_data_gaps`: one gap
`(cur, cur + dur)` per step with no stored timestamp in
`[cur, cur + dur)`. -/
def gapWalk : Nat → List Nat → Nat → Nat → Nat → List Gap
  | 0, _, _, _, _ => []
  | f + 1, ts, cur, e, dur =>
    if cur < e then
      (if ts.any (fun t => decide (cur ≤ t) && decide (t < cur + dur)) then []
       else [(cur, cur + dur)]) ++ gapWalk f ts (cur + dur) e dur
    else []

/-- `Backfill.check_data_gaps(symbol, timeframe, start, end)`
(`backfill.py` lines 67-94).  The load of the stored series is
abstracted as `Except Unit (List (Option Nat))`: `.error` models an
exception raised anywhere inside the `try` (caught by the blanket
`except`), a `none` row models a timestamp that parsed to `NaT`
(`isna().any()`), and a `some t` row a parsed timestamp.  On an
exception, an empty series or a parse failure the whole requested range
is returned as the single gap `(s, e)`; otherwise the loop walks the
range in steps of the timeframe duration `dur`. -/
def checkDataGaps (load : Except Unit (List (Option Nat))) (s e dur : Nat) : List Gap :=
  match load with
  | .error _ => [(s, e)]
  | .ok rows =>
    if rows = [] then [(s, e)]
    else if rows.any Option.isNone then [(s, e)]
    else gapWalk (e - s) (rows.filterMap id) s e dur

/-- One day in seconds. -/
def daySecs : Nat := 86400

/-- The 60-day chunk span of `fetch_historical_data`
(`pd.Timedelta(days=60)`, `backfill.py` line 109), in seconds. -/
def chunkSpan : Nat := 60 * daySecs

/-- The `while current_start <= to_date` chunking loop of
`fetch_historical_data` (`backfill.py` lines 107-111): each chunk runs
from `cur` to `min (cur + 60 days) toT`, and the next chunk starts one
second after the previous chunk's end.  The first argument is fuel;
`toT + 1` is enough since `cur` grows by at least one each iteration. -/
def chunkLoop : Nat → Nat → Nat → List (Nat × Nat)
  | 0, _, _ => []
  | f + 1, cur, toT =>
    if cur ≤ toT then (cur, min (cur + chunkSpan) toT) :: chunkLoop f (min (cur + chunkSpan) toT + 1) toT
    else []

/-- The chunk requests issued by `Backfill.fetch_historical_data` for a
`lookback`-day request (`backfill.py` lines 98-111, `today_only =
False`): the lookback is first capped at 100 days (`min(lookback,
100)`, line 98), then the capped range — measured here in seconds from
`from_date = to_date - lookback days` as origin — is chunked by the
60-day loop. -/
def fetchPeriods (lookback : Nat) : List (Nat × Nat) :=
  chunkLoop (min lookback 100 * daySecs + 1) 0 (min lookback 100 * daySecs)

/-- The 1-second source frame of the C5 counterexample: bars at seconds
0 and 61, so the 60-second group starting at 60 is still open at wall
time 61. -/
def c5Src : List Bar := [⟨0, 1, 1, 1, 1, 1⟩, ⟨61, 1, 1, 1, 1, 1⟩]

/-- The post-processing of the concatenated chunk responses in
`fetch_historical_data` (`backfill.py` lines 133-139): only when some
timestamp is duplicated are duplicates dropped (keeping the
latest-fetched row) and the rows sorted ascending; otherwise the
concatenation is returned as fetched.  An empty concatenation returns
an empty list. -/
def postprocessCandles (allCandles : List Bar) : List Bar :=
  if hasDupTs allCandles then sortByTs (dropDupKeepLast allCandles) else allCandles

/-- The OHLC ordering invariant of the spec's Bar data model. -/
def ohlcInv (b : Bar) : Prop :=
  b.low ≤ b.open' ∧ b.open' ≤ b.high ∧ b.low ≤ b.close ∧ b.close ≤ b.high ∧ b.low ≤ b.high

instance (b : Bar) : Decidable (ohlcInv b) := by
  unfold ohlcInv; infer_instance

theorem foldl_max_init {α : Type} [LinearOrder α] (l : List α) (a : α) :
    a ≤ l.foldl max a := by
  induction l generalizing a with
  | nil => exact le_refl a
  | cons x xs ih => exact le_trans (le_max_left a x) (ih (max a x))

theorem foldl_max_of_mem {α : Type} [LinearOrder α] {l : List α} {x : α} (a : α)
    (hx : x ∈ l) : x ≤ l.foldl max a := by
  induction l generalizing a with
  | nil => cases hx
  | cons y ys ih =>
    rcases List.mem_cons.mp hx with h | h
    · subst h; exact le_trans (le_max_right a x) (foldl_max_init ys (max a x))
    · exact ih (max a y) h

theorem foldl_max_mem {α : Type} [LinearOrder α] (l : List α) (a : α) :
    l.foldl max a = a ∨ l.foldl max a ∈ l := by
  induction l generalizing a with
  | nil => exact Or.inl rfl
  | cons x xs ih =>
    rcases ih (max a x) with h | h
    · rcases max_choice a x with hm | hm
      · exact Or.inl (by rw [List.foldl_cons, h, hm])
      · exact Or.inr (by rw [List.foldl_cons, h, hm]; exact List.mem_cons_self x xs)
    · exact Or.inr (List.mem_cons_of_mem x h)

theorem foldl_min_init {α : Type} [LinearOrder α] (l : List α) (a : α) :
    l.foldl min a ≤ a := by
  induction l generalizing a with
  | nil => exact le_refl a
  | cons x xs ih => exact le_trans (ih (min a x)) (min_le_left a x)

theorem foldl_min_of_mem {α : Type} [LinearOrder α] {l : List α} {x : α} (a : α)
    (hx : x ∈ l) : l.foldl min a ≤ x := by
  induction l generalizing a with
  | nil => cases hx
  | cons y ys ih =>
    rcases List.mem_cons.mp hx with h | h
    · subst h; exact le_trans (foldl_min_init ys (min a x)) (min_le_right a x)
    · exact ih (min a y) h

theorem foldl_min_mem {α : Type} [LinearOrder α] (l : List α) (a : α) :
    l.foldl min a = a ∨ l.foldl min a ∈ l := by
  induction l generalizing a with
  | nil => exact Or.inl rfl
  | cons x xs ih =>
    rcases ih (min a x) with h | h
    · rcases min_choice a x with hm | hm
      · exact Or.inl (by rw [List.foldl_cons, h, hm])
      · exact Or.inr (by rw [List.foldl_cons, h, hm]; exact List.mem_cons_self x xs)
    · exact Or.inr (List.mem_cons_of_mem x h)

theorem mem_insertKey {n a : Nat} : ∀ {l : List Nat}, a ∈ insertKey n l ↔ a = n ∨ a ∈ l := by
  intro l
  induction l with
  | nil => simp [insertKey]
  | cons x xs ih =>
    unfold insertKey
    split_ifs with h1 h2
    · subst h1; simp only [List.mem_cons]; tauto
    · simp only [List.mem_cons]
    · simp only [List.mem_cons, ih]; tauto

theorem mem_sortedKeys {a : Nat} : ∀ {l : List Nat}, a ∈ sortedKeys l ↔ a ∈ l := by
  intro l
  induction l with
  | nil => simp [sortedKeys]
  | cons x xs ih =>
    show a ∈ insertKey x (sortedKeys xs) ↔ _
    rw [mem_insertKey, ih]
    simp [List.mem_cons]

theorem aggGroup_timestamp (b : Nat) (g : List Bar) : (aggGroup b g).timestamp = b := by
  cases g <;> rfl

theorem resample_tsList (src : List Bar) (tf : Nat) :
    tsList (resampleToTimeframe src tf) = sortedKeys (src.map fun r => floorTo tf r.timestamp) := by
  unfold tsList resampleToTimeframe
  rw [List.map_map]
  conv_rhs => rw [← List.map_id (sortedKeys (src.map fun r => floorTo tf r.timestamp))]
  exact List.map_congr_left fun b _ => aggGroup_timestamp b _

theorem dropDup_cons (b : Bar) (r : List Bar) :
    dropDupKeepLast (b :: r) =
      if r.any (fun x => x.timestamp == b.timestamp) then dropDupKeepLast r
      else b :: dropDupKeepLast r := rfl

theorem hasDup_cons (b : Bar) (r : List Bar) :
    hasDupTs (b :: r) = (r.any (fun x => x.timestamp == b.timestamp) || hasDupTs r) := rfl

theorem any_ts_eq_true {r : List Bar} {b : Bar}
    (h : r.any (fun x => x.timestamp == b.timestamp) = true) :
    ∃ y ∈ r, y.timestamp = b.timestamp := by
  simpa using h

theorem any_ts_eq_false {r : List Bar} {b : Bar}
    (h : ¬ r.any (fun x => x.timestamp == b.timestamp) = true) :
    ∀ y ∈ r, y.timestamp ≠ b.timestamp := by
  simpa using h

theorem dropDup_subset : ∀ {l : List Bar} {b : Bar}, b ∈ dropDupKeepLast l → b ∈ l := by
  intro l
  induction l with
  | nil => intro b h; cases h
  | cons x xs ih =>
    intro b h
    rw [dropDup_cons] at h
    split_ifs at h with h1
    · exact List.mem_cons_of_mem x (ih h)
    · rcases List.mem_cons.mp h with h2 | h2
      · exact h2 ▸ List.mem_cons_self x xs
      · exact List.mem_cons_of_mem x (ih h2)

theorem ts_mem_dropDup {t : Nat} : ∀ {l : List Bar},
    t ∈ tsList (dropDupKeepLast l) ↔ t ∈ tsList l := by
  intro l
  induction l with
  | nil => simp [dropDupKeepLast]
  | cons x xs ih =>
    rw [dropDup_cons]
    split_ifs with h1
    · rw [ih]
      simp only [tsList, List.map_cons, List.mem_cons]
      constructor
      · exact fun h => Or.inr h
      · rintro (h | h)
        · subst h
          rcases any_ts_eq_true h1 with ⟨y, hy, hyt⟩
          exact hyt ▸ List.mem_map_of_mem Bar.timestamp hy
        · exact h
    · simp only [tsList, List.map_cons, List.mem_cons]
      rw [show (dropDupKeepLast xs).map Bar.timestamp = tsList (dropDupKeepLast xs) from rfl, ih]
      rfl

theorem nodup_ts_dropDup : ∀ {l : List Bar}, (tsList (dropDupKeepLast l)).Nodup := by
  intro l
  induction l with
  | nil => simp [dropDupKeepLast, tsList]
  | cons x xs ih =>
    rw [dropDup_cons]
    split_ifs with h1
    · exact ih
    · simp only [tsList, List.map_cons, List.nodup_cons]
      refine ⟨fun hmem => ?_, ih⟩
      have hmem' : x.timestamp ∈ tsList xs := ts_mem_dropDup.mp hmem
      rcases List.mem_map.mp hmem' with ⟨y, hy, hyt⟩
      exact any_ts_eq_false h1 y hy hyt

theorem dropDup_eq_self_of_nodup : ∀ {l : List Bar}, (tsList l).Nodup → dropDupKeepLast l = l := by
  intro l
  induction l with
  | nil => intro _; rfl
  | cons x xs ih =>
    intro h
    simp only [tsList, List.map_cons, List.nodup_cons] at h
    rw [dropDup_cons]
    split_ifs with h1
    · rcases any_ts_eq_true h1 with ⟨y, hy, hyt⟩
      exact absurd (hyt ▸ List.mem_map_of_mem Bar.timestamp hy) h.1
    · rw [ih h.2]

theorem mem_dropDup_append_right {inc : List Bar} (hnd : (tsList inc).Nodup)
    {b : Bar} (hb : b ∈ inc) : ∀ (ex : List Bar), b ∈ dropDupKeepLast (ex ++ inc) := by
  intro ex
  induction ex with
  | nil => simpa [dropDup_eq_self_of_nodup hnd] using hb
  | cons x xs ih =>
    rw [List.cons_append, dropDup_cons]
    split_ifs with h1
    · exact ih
    · exact List.mem_cons_of_mem x ih

theorem mem_dropDup_of_last_occurrence {b : Bar} {l₂ : List Bar}
    (hnot : b.timestamp ∉ tsList l₂) :
    ∀ (l₁ : List Bar), b ∈ dropDupKeepLast (l₁ ++ b :: l₂) := by
  intro l₁
  induction l₁ with
  | nil =>
    rw [List.nil_append, dropDup_cons]
    have hguard : ¬ (l₂.any (fun x => x.timestamp == b.timestamp) = true) := by
      intro h
      rcases any_ts_eq_true h with ⟨y, hy, hyt⟩
      exact hnot (hyt ▸ List.mem_map_of_mem Bar.timestamp hy)
    rw [if_neg hguard]
    exact List.mem_cons_self b _
  | cons x l₁ ih =>
    rw [List.cons_append, dropDup_cons]
    split_ifs with h1
    · exact ih
    · exact List.mem_cons_of_mem x ih

theorem dropDup_provenance {inc : List Bar} {b : Bar} : ∀ {ex : List Bar},
    b ∈ dropDupKeepLast (ex ++ inc) →
    b ∈ inc ∨ (b ∈ ex ∧ b.timestamp ∉ tsList inc) := by
  intro ex
  induction ex with
  | nil => intro h; exact Or.inl (dropDup_subset h)
  | cons x xs ih =>
    intro h
    rw [List.cons_append, dropDup_cons] at h
    split_ifs at h with h1
    · rcases ih h with h2 | h2
      · exact Or.inl h2
      · exact Or.inr ⟨List.mem_cons_of_mem x h2.1, h2.2⟩
    · rcases List.mem_cons.mp h with h2 | h2
      · subst h2
        refine Or.inr ⟨List.mem_cons_self b xs, fun hmem => ?_⟩
        rcases List.mem_map.mp hmem with ⟨y, hy, hyt⟩
        exact any_ts_eq_false h1 y (List.mem_append_right xs hy) hyt
      · rcases ih h2 with h3 | h3
        · exact Or.inl h3
        · exact Or.inr ⟨List.mem_cons_of_mem x h3.1, h3.2⟩

theorem dropDup_append_of_ts_subset {inc : List Bar} : ∀ {ex : List Bar},
    (∀ b ∈ ex, b.timestamp ∈ tsList inc) →
    dropDupKeepLast (ex ++ inc) = dropDupKeepLast inc := by
  intro ex
  induction ex with
  | nil => intro _; rfl
  | cons x xs ih =>
    intro h
    rw [List.cons_append, dropDup_cons]
    split_ifs with h1
    · exact ih fun b hb => h b (List.mem_cons_of_mem x hb)
    · exfalso
      rcases List.mem_map.mp (h x (List.mem_cons_self x xs)) with ⟨y, hy, hyt⟩
      exact any_ts_eq_false h1 y (List.mem_append_right xs hy) hyt

theorem hasDup_of_shared {t : Nat} {inc : List Bar} (hi : t ∈ tsList inc) :
    ∀ {ex : List Bar}, t ∈ tsList ex → hasDupTs (ex ++ inc) = true := by
  intro ex
  induction ex with
  | nil => intro h; cases h
  | cons x xs ih =>
    intro h
    rw [List.cons_append, hasDup_cons]
    rcases List.mem_map.mp h with ⟨y, hy, hyt⟩
    rcases List.mem_cons.mp hy with h2 | h2
    · subst h2
      rcases List.mem_map.mp hi with ⟨z, hz, hzt⟩
      have hz2 : (xs ++ inc).any (fun b => b.timestamp == y.timestamp) = true :=
        List.any_eq_true.mpr ⟨z, List.mem_append_right xs hz, by simp [hzt, hyt]⟩
      simp [hz2]
    · have ht : t ∈ tsList xs := hyt ▸ List.mem_map_of_mem Bar.timestamp h2
      simp [ih ht]

theorem nodup_of_not_hasDup : ∀ {l : List Bar}, hasDupTs l = false → (tsList l).Nodup := by
  intro l
  induction l with
  | nil => intro _; simp [tsList]
  | cons x xs ih =>
    intro h
    rw [hasDup_cons, Bool.or_eq_false_iff] at h
    simp only [tsList, List.map_cons, List.nodup_cons]
    refine ⟨fun hmem => ?_, ih h.2⟩
    rcases List.mem_map.mp hmem with ⟨y, hy, hyt⟩
    have h1 : ¬ xs.any (fun b => b.timestamp == x.timestamp) = true := by
      rw [h.1]; exact Bool.false_ne_true
    exact any_ts_eq_false h1 y hy hyt

theorem perm_insertByTs (b : Bar) : ∀ (l : List Bar), List.Perm (insertByTs b l) (b :: l) := by
  intro l
  induction l with
  | nil => exact List.Perm.refl _
  | cons x xs ih =>
    unfold insertByTs
    split_ifs with h1
    · exact List.Perm.refl _
    · exact (List.Perm.cons x ih).trans (List.Perm.swap b x xs)

theorem perm_sortByTs : ∀ (l : List Bar), List.Perm (sortByTs l) l := by
  intro l
  induction l with
  | nil => exact List.Perm.refl _
  | cons x xs ih =>
    exact (perm_insertByTs x (sortByTs xs)).trans (List.Perm.cons x ih)

theorem pairwise_le_insertByTs {b : Bar} : ∀ {l : List Bar},
    List.Pairwise (fun u v => u.timestamp ≤ v.timestamp) l →
    List.Pairwise (fun u v => u.timestamp ≤ v.timestamp) (insertByTs b l) := by
  intro l
  induction l with
  | nil => intro _; simp [insertByTs]
  | cons x xs ih =>
    intro h
    rw [List.pairwise_cons] at h
    unfold insertByTs
    split_ifs with h1
    · rw [List.pairwise_cons]
      exact ⟨fun y hy => by
        rcases List.mem_cons.mp hy with h2 | h2
        · exact h2 ▸ h1
        · exact le_trans h1 (h.1 y h2), List.pairwise_cons.mpr h⟩
    · rw [List.pairwise_cons]
      refine ⟨fun y hy => ?_, ih h.2⟩
      have := (perm_insertByTs b xs).mem_iff.mp hy
      rcases List.mem_cons.mp this with h2 | h2
      · exact h2 ▸ le_of_not_le h1
      · exact h.1 y h2

theorem pairwise_le_sortByTs : ∀ (l : List Bar),
    List.Pairwise (fun u v => u.timestamp ≤ v.timestamp) (sortByTs l) := by
  intro l
  induction l with
  | nil => simp [sortByTs]
  | cons x xs ih => exact pairwise_le_insertByTs ih

theorem insertByTs_eq_cons {b : Bar} : ∀ {l : List Bar},
    (∀ y ∈ l, b.timestamp ≤ y.timestamp) → insertByTs b l = b :: l := by
  intro l
  cases l with
  | nil => intro _; rfl
  | cons x xs =>
    intro h
    unfold insertByTs
    rw [if_pos (h x (List.mem_cons_self x xs))]

theorem sortByTs_eq_self : ∀ {l : List Bar},
    List.Pairwise (fun u v => u.timestamp ≤ v.timestamp) l → sortByTs l = l := by
  intro l
  induction l with
  | nil => intro _; rfl
  | cons x xs ih =>
    intro h
    rw [List.pairwise_cons] at h
    show insertByTs x (sortByTs xs) = x :: xs
    rw [ih h.2]
    exact insertByTs_eq_cons h.1

theorem pairwise_lt_of_le_nodup {l : List Bar}
    (hle : List.Pairwise (fun u v => u.timestamp ≤ v.timestamp) l)
    (hnd : (tsList l).Nodup) :
    List.Pairwise (fun u v => u.timestamp < v.timestamp) l := by
  have hne : List.Pairwise (fun u v => u.timestamp ≠ v.timestamp) l :=
    List.pairwise_map.mp hnd
  exact (List.Pairwise.and hle hne).imp fun h => lt_of_le_of_ne h.1 h.2

theorem mergePath_nodup (ex inc : List Bar) : (tsList (mergePath ex inc)).Nodup := by
  have hperm := (perm_sortByTs (dropDupKeepLast (ex ++ inc))).map Bar.timestamp
  exact hperm.nodup_iff.mpr nodup_ts_dropDup

theorem mergePath_sorted (ex inc : List Bar) :
    List.Pairwise (fun u v => u.timestamp < v.timestamp) (mergePath ex inc) :=
  pairwise_lt_of_le_nodup (pairwise_le_sortByTs _) (mergePath_nodup ex inc)

theorem mergePath_keys (ex inc : List Bar) (t : Nat) :
    t ∈ tsList (mergePath ex inc) ↔ t ∈ tsList ex ∨ t ∈ tsList inc := by
  have hperm := (perm_sortByTs (dropDupKeepLast (ex ++ inc))).map Bar.timestamp
  rw [show tsList (mergePath ex inc) = (sortByTs (dropDupKeepLast (ex ++ inc))).map Bar.timestamp from rfl]
  rw [hperm.mem_iff]
  rw [show (dropDupKeepLast (ex ++ inc)).map Bar.timestamp = tsList (dropDupKeepLast (ex ++ inc)) from rfl]
  rw [ts_mem_dropDup]
  simp [tsList, List.mem_append]

theorem maxTs_mem {src : List Bar} (h : src ≠ []) : maxTs src ∈ tsList src := by
  match src, h with
  | b :: r, _ =>
    show (r.map Bar.timestamp).foldl max b.timestamp ∈ _
    rcases foldl_max_mem (r.map Bar.timestamp) b.timestamp with h1 | h1
    · rw [h1]; exact List.mem_cons_self _ _
    · exact List.mem_cons_of_mem _ h1

theorem gapWalk_succ (f : Nat) (ts : List Nat) (cur e dur : Nat) :
    gapWalk (f + 1) ts cur e dur =
      if cur < e then
        (if ts.any (fun t => decide (cur ≤ t) && decide (t < cur + dur)) then []
         else [(cur, cur + dur)]) ++ gapWalk f ts (cur + dur) e dur
      else [] := rfl

theorem stepStarts_succ (f cur e dur : Nat) :
    stepStarts (f + 1) cur e dur =
      if cur < e then cur :: stepStarts f (cur + dur) e dur else [] := rfl

theorem gapWalk_eq_filterMap (ts : List Nat) (dur : Nat) : ∀ (f cur e : Nat),
    gapWalk f ts cur e dur =
      (stepStarts f cur e dur).filterMap fun c =>
        if ts.any (fun t => decide (c ≤ t) && decide (t < c + dur)) then none
        else some (c, c + dur) := by
  intro f
  induction f with
  | zero => intro cur e; rfl
  | succ f ih =>
    intro cur e
    rw [gapWalk_succ, stepStarts_succ]
    by_cases h1 : cur < e
    · rw [if_pos h1, if_pos h1, List.filterMap_cons]
      by_cases h2 : (ts.any fun t => decide (cur ≤ t) && decide (t < cur + dur)) = true
      · simp [h2, ih]
      · simp [h2, ih]
    · rw [if_neg h1, if_neg h1]
      rfl

theorem stepStarts_lb {x : Nat} {e dur : Nat} : ∀ {f cur : Nat},
    x ∈ stepStarts f cur e dur → cur ≤ x := by
  intro f
  induction f with
  | zero => intro cur h; cases h
  | succ f ih =>
    intro cur h
    show cur ≤ x
    rw [show stepStarts (f + 1) cur e dur = if cur < e then cur :: stepStarts f (cur + dur) e dur else [] from rfl] at h
    split_ifs at h with h1
    · rcases List.mem_cons.mp h with h2 | h2
      · exact h2 ▸ le_refl x
      · exact le_trans (Nat.le_add_right cur dur) (ih h2)
    · cases h

theorem stepStarts_pairwise {e dur : Nat} (hdur : 0 < dur) : ∀ (f cur : Nat),
    List.Pairwise (· < ·) (stepStarts f cur e dur) := by
  intro f
  induction f with
  | zero => intro cur; exact List.Pairwise.nil
  | succ f ih =>
    intro cur
    show List.Pairwise _ (if cur < e then cur :: stepStarts f (cur + dur) e dur else [])
    split_ifs with h1
    · rw [List.pairwise_cons]
      refine ⟨fun y hy => ?_, ih (cur + dur)⟩
      exact lt_of_lt_of_le (Nat.lt_add_of_pos_right hdur) (stepStarts_lb hy)
    · exact List.Pairwise.nil

theorem pairwise_fst_filterMap {steps : List Nat}
    (g : Nat → Option Gap) (hg : ∀ c p, g c = some p → p.1 = c)
    (h : List.Pairwise (· < ·) steps) :
    List.Pairwise (fun a b => (a : Gap).1 < b.1) (steps.filterMap g) := by
  induction steps with
  | nil => exact List.Pairwise.nil
  | cons x xs ih =>
    rw [List.pairwise_cons] at h
    rw [List.filterMap_cons]
    cases hx : g x with
    | none => exact ih h.2
    | some p =>
      rw [List.pairwise_cons]
      refine ⟨fun q hq => ?_, ih h.2⟩
      rcases List.mem_filterMap.mp hq with ⟨c, hc, hgc⟩
      rw [hg x p hx, hg c q hgc]
      exact h.1 c hc

theorem chunkLoop_nil_of_gt {cur toT : Nat} (h : toT < cur) : ∀ f, chunkLoop f cur toT = [] := by
  intro f
  cases f with
  | zero => rfl
  | succ f =>
    show (if cur ≤ toT then _ else []) = []
    rw [if_neg (by omega)]

theorem chunkLoop_spec : ∀ (f cur toT : Nat), cur ≤ toT → toT < cur + f →
    (chunkLoop f cur toT).head? = some (cur, min (cur + chunkSpan) toT) ∧
    ((chunkLoop f cur toT).getLast?.map Prod.snd) = some toT ∧
    List.Chain' (fun a b => (b : Nat × Nat).1 = a.2 + 1) (chunkLoop f cur toT) ∧
    (∀ p ∈ chunkLoop f cur toT, p.1 ≤ p.2 ∧ p.2 ≤ p.1 + chunkSpan) := by
  intro f
  induction f with
  | zero => intro cur toT h1 h2; omega
  | succ f ih =>
    intro cur toT h1 h2
    have hstep : chunkLoop (f + 1) cur toT =
        (cur, min (cur + chunkSpan) toT) :: chunkLoop f (min (cur + chunkSpan) toT + 1) toT := by
      show (if cur ≤ toT then _ else []) = _
      rw [if_pos h1]
    by_cases hend : toT ≤ cur + chunkSpan
    · have hmin : min (cur + chunkSpan) toT = toT := by omega
      have htail : chunkLoop f (min (cur + chunkSpan) toT + 1) toT = [] :=
        chunkLoop_nil_of_gt (by omega) f
      rw [hstep, htail]
      refine ⟨rfl, by simp [hmin], List.chain'_singleton _, ?_⟩
      intro p hp
      rcases List.mem_singleton.mp hp with rfl
      exact ⟨by omega, by omega⟩
    · have hmin : min (cur + chunkSpan) toT = cur + chunkSpan := by omega
      have h3 : cur + chunkSpan + 1 ≤ toT := by omega
      have h4 : toT < cur + chunkSpan + 1 + f := by omega
      have ihr := ih (cur + chunkSpan + 1) toT h3 h4
      rw [hstep, hmin]
      have htail_ne : chunkLoop f (cur + chunkSpan + 1) toT ≠ [] := by
        intro hnil
        rw [hnil] at ihr
        simp at ihr
      refine ⟨rfl, ?_, ?_, ?_⟩
      · obtain ⟨y, ys, hys⟩ := List.exists_cons_of_ne_nil htail_ne
        rw [hys, List.getLast?_cons_cons]
        rw [hys] at ihr
        exact ihr.2.1
      · rw [List.chain'_cons']
        refine ⟨fun q hq => ?_, ihr.2.2.1⟩
        have := ihr.1
        rw [hq] at this
        have hq2 : q = (cur + chunkSpan + 1, min (cur + chunkSpan + 1 + chunkSpan) toT) :=
          Option.some_injective _ this
        rw [hq2]
      · intro p hp
        rcases List.mem_cons.mp hp with rfl | hp2
        · exact ⟨by omega, by omega⟩
        · exact ihr.2.2.2 p hp2

theorem aggGroup_inv (key : Nat) (x : Bar) (xs : List Bar)
    (hall : ∀ r ∈ x :: xs, ohlcInv r) : ohlcInv (aggGroup key (x :: xs)) := by
  have hx := hall x (List.mem_cons_self x xs)
  have hgl := hall ((x :: xs).getLast (List.cons_ne_nil x xs))
    (List.getLast_mem (List.cons_ne_nil x xs))
  have hlow : ∀ r ∈ x :: xs, (xs.map Bar.low).foldl min x.low ≤ r.low := by
    intro r hr
    rcases List.mem_cons.mp hr with h | h
    · exact h ▸ foldl_min_init _ _
    · exact foldl_min_of_mem x.low (List.mem_map_of_mem Bar.low h)
  have hhigh : ∀ r ∈ x :: xs, r.high ≤ (xs.map Bar.high).foldl max x.high := by
    intro r hr
    rcases List.mem_cons.mp hr with h | h
    · exact h ▸ foldl_max_init _ _
    · exact foldl_max_of_mem x.high (List.mem_map_of_mem Bar.high h)
  have h1 : (aggGroup key (x :: xs)).low ≤ (aggGroup key (x :: xs)).open' :=
    le_trans (hlow x (List.mem_cons_self x xs)) hx.1
  have h2 : (aggGroup key (x :: xs)).open' ≤ (aggGroup key (x :: xs)).high :=
    le_trans hx.2.1 (hhigh x (List.mem_cons_self x xs))
  have h3 : (aggGroup key (x :: xs)).low ≤ (aggGroup key (x :: xs)).close :=
    le_trans (hlow _ (List.getLast_mem (List.cons_ne_nil x xs))) hgl.2.2.1
  have h4 : (aggGroup key (x :: xs)).close ≤ (aggGroup key (x :: xs)).high :=
    le_trans hgl.2.2.2.1 (hhigh _ (List.getLast_mem (List.cons_ne_nil x xs)))
  exact ⟨h1, h2, h3, h4, le_trans h1 h2⟩

/-- Claim C1 (counterexample): on the spec's scenario ticks — prices
`[100, 102, 99, 101]`, cumulative volumes `[10, 15, 22, 30]` within one
second — `aggregate_ticks` emits a bar whose volume is `30`, the last
tick's raw cumulative volume, not the claimed cumulative-volume increase
`30 - 10 = 20`. -/
theorem c1_counterexample :
    (aggregateTicks c1Ticks).map Bar.volume = some 30 ∧
    ¬ (aggregateTicks c1Ticks).map Bar.volume = some (30 - 10) := by decide

/-- Claim C1 (amended): for every non-empty tick batch,
`aggregate_ticks` emits exactly one bar with open the first tick's
price, high the maximum price, low the minimum price, close the last
tick's price, and volume the LAST tick's cumulative-volume field (not
the increase over the interval). -/
theorem c1_aggregate_fields (t : Tick) (ts : List Tick) :
    ∃ b, aggregateTicks (t :: ts) = some b ∧
      b.open' = t.ltp ∧
      (∀ x ∈ t :: ts, x.ltp ≤ b.high) ∧ (∃ x ∈ t :: ts, b.high = x.ltp) ∧
      (∀ x ∈ t :: ts, b.low ≤ x.ltp) ∧ (∃ x ∈ t :: ts, b.low = x.ltp) ∧
      b.close = ((t :: ts).getLast (List.cons_ne_nil t ts)).ltp ∧
      b.volume = ((t :: ts).getLast (List.cons_ne_nil t ts)).volume := by
  refine ⟨_, rfl, rfl, ?_, ?_, ?_, ?_, rfl, rfl⟩
  · intro x hx
    show x.ltp ≤ (ts.map Tick.ltp).foldl max t.ltp
    rcases List.mem_cons.mp hx with h | h
    · exact h ▸ foldl_max_init _ _
    · exact foldl_max_of_mem t.ltp (List.mem_map_of_mem Tick.ltp h)
  · show ∃ x ∈ t :: ts, (ts.map Tick.ltp).foldl max t.ltp = x.ltp
    rcases foldl_max_mem (ts.map Tick.ltp) t.ltp with h | h
    · exact ⟨t, List.mem_cons_self t ts, h⟩
    · rcases List.mem_map.mp h with ⟨y, hy, hyl⟩
      exact ⟨y, List.mem_cons_of_mem t hy, hyl.symm⟩
  · intro x hx
    show (ts.map Tick.ltp).foldl min t.ltp ≤ x.ltp
    rcases List.mem_cons.mp hx with h | h
    · exact h ▸ foldl_min_init _ _
    · exact foldl_min_of_mem t.ltp (List.mem_map_of_mem Tick.ltp h)
  · show ∃ x ∈ t :: ts, (ts.map Tick.ltp).foldl min t.ltp = x.ltp
    rcases foldl_min_mem (ts.map Tick.ltp) t.ltp with h | h
    · exact ⟨t, List.mem_cons_self t ts, h⟩
    · rcases List.mem_map.mp h with ⟨y, hy, hyl⟩
      exact ⟨y, List.mem_cons_of_mem t hy, hyl.symm⟩

/-- Witness for `c1_aggregate_fields` at the C1 scenario ticks. -/
theorem c1_aggregate_fields_witness :
    ∃ b, aggregateTicks c1Ticks = some b ∧
      b.open' = 100 ∧
      (∀ x ∈ c1Ticks, x.ltp ≤ b.high) ∧ (∃ x ∈ c1Ticks, b.high = x.ltp) ∧
      (∀ x ∈ c1Ticks, b.low ≤ x.ltp) ∧ (∃ x ∈ c1Ticks, b.low = x.ltp) ∧
      b.close = (c1Ticks.getLast (by decide)).ltp ∧
      b.volume = (c1Ticks.getLast (by decide)).volume :=
  c1_aggregate_fields ⟨100, 10, 0⟩ [⟨102, 15, 100⟩, ⟨99, 22, 200⟩, ⟨101, 30, 300⟩]

/-- Claim C5 (counterexample): `resample_to_timeframe` consults no wall
clock, so it emits the partially-filled current interval.  With
1-second bars at seconds 0 and 61 (a state only reachable at wall time
61 or later, as witnessed by every source timestamp being at most 61),
resampling to 60 seconds emits a bar keyed at 60 although that group's
boundary, 120, has not elapsed at time 61. -/
theorem c5_counterexample :
    (c5Src.all fun r => decide (r.timestamp ≤ 61)) = true ∧
    tsList (resampleToTimeframe c5Src 60) = [0, 60] ∧
    ¬ (60 + 60 ≤ 61) := by decide

/-- Claim C5 (amended): `resample_to_timeframe` emits a bar for every
group containing at least one source bar — in particular always for the
group of the latest source timestamp, i.e. the possibly still-open
current interval — so an already-emitted bar for a key can later be
corrected when more 1-second bars arrive in that interval. -/
theorem c5_latest_group_emitted (src : List Bar) (tf : Nat) (h : src ≠ []) :
    floorTo tf (maxTs src) ∈ tsList (resampleToTimeframe src tf) := by
  rcases List.mem_map.mp (maxTs_mem h) with ⟨r, hr, hrt⟩
  rw [resample_tsList]
  apply mem_sortedKeys.mpr
  rw [← hrt]
  exact List.mem_map_of_mem _ hr

/-- Witness for `c5_latest_group_emitted` on the C5 source frame. -/
theorem c5_latest_group_emitted_witness :
    c5Src ≠ [] ∧ floorTo 60 (maxTs c5Src) ∈ tsList (resampleToTimeframe c5Src 60) :=
  ⟨by decide, c5_latest_group_emitted c5Src 60 (by decide)⟩

/-- Claim C8 (confirmed): one `resample_to_timeframe` call reads only
the 1-second frame and writes only the target-timeframe cache, so
calling it twice on the same unchanged 1-second source returns
identical bars both times (and leaves the same state). -/
theorem c8_resample_idempotent (st : RState) (tf : Nat) :
    (resampleStep (resampleStep st tf).2 tf).1 = (resampleStep st tf).1 ∧
    (resampleStep (resampleStep st tf).2 tf).2 = (resampleStep st tf).2 := by
  by_cases h : st.oneSec = []
  · simp [resampleStep, h]
  · simp [resampleStep, h]

/-- Claim C9 (confirmed): every bar emitted by `aggregate_ticks` from a
non-empty tick batch satisfies `low ≤ open ≤ high`, `low ≤ close ≤
high` and `low ≤ high`, and `resample_to_timeframe` preserves this
invariant whenever every 1-second source bar satisfies it. -/
theorem c9_ohlc_invariant :
    (∀ (ticks : List Tick) (b : Bar), aggregateTicks ticks = some b → ohlcInv b) ∧
    (∀ (src : List Bar) (tf : Nat), (∀ r ∈ src, ohlcInv r) →
      ∀ b ∈ resampleToTimeframe src tf, ohlcInv b) := by
  constructor
  · intro ticks b h
    match ticks, h with
    | t :: ts, h =>
      have hb := Option.some.inj h
      have hmem := List.getLast_mem (List.cons_ne_nil t ts)
      have hlow : ∀ x ∈ t :: ts, (ts.map Tick.ltp).foldl min t.ltp ≤ x.ltp := by
        intro x hx
        rcases List.mem_cons.mp hx with h2 | h2
        · exact h2 ▸ foldl_min_init _ _
        · exact foldl_min_of_mem t.ltp (List.mem_map_of_mem Tick.ltp h2)
      have hhigh : ∀ x ∈ t :: ts, x.ltp ≤ (ts.map Tick.ltp).foldl max t.ltp := by
        intro x hx
        rcases List.mem_cons.mp hx with h2 | h2
        · exact h2 ▸ foldl_max_init _ _
        · exact foldl_max_of_mem t.ltp (List.mem_map_of_mem Tick.ltp h2)
      have h1 : b.low ≤ b.open' := by
        rw [← hb]; exact hlow t (List.mem_cons_self t ts)
      have h2 : b.open' ≤ b.high := by
        rw [← hb]; exact hhigh t (List.mem_cons_self t ts)
      have h3 : b.low ≤ b.close := by
        rw [← hb]; exact hlow _ hmem
      have h4 : b.close ≤ b.high := by
        rw [← hb]; exact hhigh _ hmem
      exact ⟨h1, h2, h3, h4, le_trans h1 h2⟩
  · intro src tf hinv b hb
    rcases List.mem_map.mp hb with ⟨key, hkey, rfl⟩
    rcases List.mem_map.mp (mem_sortedKeys.mp hkey) with ⟨r, hr, hrk⟩
    have hrg : r ∈ src.filter fun q => floorTo tf q.timestamp == key :=
      List.mem_filter.mpr ⟨hr, by simp [hrk]⟩
    cases hg : src.filter fun q => floorTo tf q.timestamp == key with
    | nil => rw [hg] at hrg; cases hrg
    | cons x xs =>
      apply aggGroup_inv
      intro q hq
      have hq2 : q ∈ src.filter fun q => floorTo tf q.timestamp == key := by
        rw [hg]; exact hq
      exact hinv q (List.mem_of_mem_filter hq2)

/-- Witness for `c9_ohlc_invariant` on the C1 scenario ticks and the
frame they aggregate to. -/
theorem c9_ohlc_invariant_witness :
    aggregateTicks c1Ticks = some ⟨0, 100, 102, 99, 101, 30⟩ ∧
    ohlcInv ⟨0, 100, 102, 99, 101, 30⟩ :=
  ⟨by decide, c9_ohlc_invariant.1 c1Ticks ⟨0, 100, 102, 99, 101, 30⟩ (by decide)⟩

/-- The existing stored frame of the C2/C3 witnesses. -/
def c2Ex : List Bar := [⟨1, 10, 10, 10, 10, 1⟩, ⟨4, 11, 11, 11, 11, 1⟩]

/-- The incoming frame of the C2 witness: shares timestamp 1 with
`c2Ex` and does not cover its range. -/
def c2Inc : List Bar := [⟨1, 20, 20, 20, 20, 2⟩, ⟨2, 21, 21, 21, 21, 2⟩]

/-- Claim C2 (counterexample): two concrete merges through
`save_historical` followed by `load_historical` violate the claim.
First, an existing series at timestamp 2 merged with incoming bars at
timestamps 3 and 1 takes the covering fast path and stores `[3, 1]` —
timestamp 2 is lost (keys are not the union) and the result is
unsorted.  Second, with incoming `[1]` against existing `[2]` no
duplicate timestamp exists, so the concatenation `[2, 1]` is stored
without sorting — not strictly ascending. -/
theorem c2_counterexample :
    ((tsList [(⟨2, 1, 1, 1, 1, 1⟩ : Bar)]).Nodup ∧
      tsList (loadHistorical (saveHistorical (some [⟨2, 1, 1, 1, 1, 1⟩])
        [⟨3, 0, 0, 0, 0, 0⟩, ⟨1, 0, 0, 0, 0, 0⟩])) = [3, 1] ∧
      ¬ (2 : Nat) ∈ tsList (loadHistorical (saveHistorical (some [⟨2, 1, 1, 1, 1, 1⟩])
        [⟨3, 0, 0, 0, 0, 0⟩, ⟨1, 0, 0, 0, 0, 0⟩]))) ∧
    (tsList (loadHistorical (saveHistorical (some [(⟨2, 1, 1, 1, 1, 1⟩ : Bar)])
        [⟨1, 0, 0, 0, 0, 0⟩])) = [2, 1] ∧
      ¬ List.Pairwise (fun a b => a < b) (tsList (loadHistorical (saveHistorical
        (some [(⟨2, 1, 1, 1, 1, 1⟩ : Bar)]) [⟨1, 0, 0, 0, 0, 0⟩])))) := by decide

/-- Claim C2 (amended): whenever the incoming batch does not cover the
existing range (so the fast overwrite path is not taken) and shares at
least one timestamp with the existing series (so the deduplicate-sort
branch runs), `save_historical` followed by `load_historical` returns a
series whose timestamps are exactly the union of existing and incoming
timestamps, strictly ascending with no duplicates, in which every
incoming bar appears and every row is either an incoming bar or an
existing bar whose timestamp is absent from the incoming batch. -/
theorem c2_merge_union (ex inc : List Bar)
    (hexnd : (tsList ex).Nodup) (hincnd : (tsList inc).Nodup)
    (hex : ex ≠ []) (hinc : inc ≠ [])
    (hcov : ¬ (minTs inc ≤ minTs ex ∧ maxTs ex ≤ maxTs inc))
    (hshared : ∃ t, t ∈ tsList ex ∧ t ∈ tsList inc) :
    (∀ t, t ∈ tsList (loadHistorical (saveHistorical (some ex) inc)) ↔
      t ∈ tsList ex ∨ t ∈ tsList inc) ∧
    List.Pairwise (fun u v => u.timestamp < v.timestamp)
      (loadHistorical (saveHistorical (some ex) inc)) ∧
    (∀ b ∈ inc, b ∈ loadHistorical (saveHistorical (some ex) inc)) ∧
    (∀ b ∈ loadHistorical (saveHistorical (some ex) inc),
      b ∈ inc ∨ (b ∈ ex ∧ b.timestamp ∉ tsList inc)) := by
  have hsave : saveHistorical (some ex) inc = some (mergePath ex inc) := by
    obtain ⟨e0, er, rfl⟩ := List.exists_cons_of_ne_nil hex
    simp only [saveHistorical, if_neg hinc]
    rw [if_neg hcov]
    unfold mergeElse mergePath
    rcases hshared with ⟨t, hte, hti⟩
    rw [if_pos (hasDup_of_shared hti hte)]
  rw [hsave]
  simp only [loadHistorical, Option.getD_some]
  refine ⟨fun t => mergePath_keys ex inc t, mergePath_sorted ex inc, ?_, ?_⟩
  · intro b hb
    exact (perm_sortByTs (dropDupKeepLast (ex ++ inc))).mem_iff.mpr
      (mem_dropDup_append_right hincnd hb ex)
  · intro b hb
    exact dropDup_provenance ((perm_sortByTs (dropDupKeepLast (ex ++ inc))).mem_iff.mp hb)

/-- Witness for `c2_merge_union` on the concrete frames `c2Ex`,
`c2Inc`. -/
theorem c2_merge_union_witness :
    (tsList c2Ex).Nodup ∧ (tsList c2Inc).Nodup ∧
    (∀ t, t ∈ tsList (loadHistorical (saveHistorical (some c2Ex) c2Inc)) ↔
      t ∈ tsList c2Ex ∨ t ∈ tsList c2Inc) ∧
    List.Pairwise (fun u v => u.timestamp < v.timestamp)
      (loadHistorical (saveHistorical (some c2Ex) c2Inc)) ∧
    (∀ b ∈ c2Inc, b ∈ loadHistorical (saveHistorical (some c2Ex) c2Inc)) ∧
    (∀ b ∈ loadHistorical (saveHistorical (some c2Ex) c2Inc),
      b ∈ c2Inc ∨ (b ∈ c2Ex ∧ b.timestamp ∉ tsList c2Inc)) := by
  have h := c2_merge_union c2Ex c2Inc (by decide) (by decide) (by decide) (by decide)
    (by decide) ⟨1, by decide, by decide⟩
  exact ⟨by decide, by decide, h.1, h.2.1, h.2.2.1, h.2.2.2⟩

/-- Claim C3 (counterexample): existing series `[2]`, incoming batch
`[1, 3]` — the incoming range covers the existing range, so
`save_historical` takes the overwrite fast path and stores exactly the
incoming batch, while the general union-deduplicate-sort merge path
would keep the existing bar at timestamp 2: the two paths disagree. -/
theorem c3_counterexample :
    loadHistorical (saveHistorical (some [(⟨2, 5, 5, 5, 5, 5⟩ : Bar)])
      [⟨1, 0, 0, 0, 0, 0⟩, ⟨3, 0, 0, 0, 0, 0⟩])
      = [⟨1, 0, 0, 0, 0, 0⟩, ⟨3, 0, 0, 0, 0, 0⟩] ∧
    mergePath [(⟨2, 5, 5, 5, 5, 5⟩ : Bar)] [⟨1, 0, 0, 0, 0, 0⟩, ⟨3, 0, 0, 0, 0, 0⟩]
      = [⟨1, 0, 0, 0, 0, 0⟩, ⟨2, 5, 5, 5, 5, 5⟩, ⟨3, 0, 0, 0, 0, 0⟩] ∧
    (minTs [⟨1, 0, 0, 0, 0, 0⟩, ⟨3, 0, 0, 0, 0, 0⟩] ≤ minTs [(⟨2, 5, 5, 5, 5, 5⟩ : Bar)] ∧
      maxTs [(⟨2, 5, 5, 5, 5, 5⟩ : Bar)] ≤ maxTs [⟨1, 0, 0, 0, 0, 0⟩, ⟨3, 0, 0, 0, 0, 0⟩]) ∧
    ¬ ([⟨1, 0, 0, 0, 0, 0⟩, ⟨3, 0, 0, 0, 0, 0⟩] : List Bar)
        = [⟨1, 0, 0, 0, 0, 0⟩, ⟨2, 5, 5, 5, 5, 5⟩, ⟨3, 0, 0, 0, 0, 0⟩] := by decide

/-- Claim C3 (amended): the overwrite fast path agrees with the general
union-deduplicate-sort merge path exactly when, in addition to the
range-covering condition, every existing timestamp also appears in the
incoming batch and the incoming batch itself is strictly ascending; in
general the fast path stores only the incoming batch and may drop
existing bars whose timestamps are absent from it. -/
theorem c3_fast_path_agrees (ex inc : List Bar)
    (hinc : inc ≠ []) (hex : ex ≠ [])
    (hsub : ∀ t ∈ tsList ex, t ∈ tsList inc)
    (hsorted : List.Pairwise (fun u v => u.timestamp < v.timestamp) inc)
    (hcov : minTs inc ≤ minTs ex ∧ maxTs ex ≤ maxTs inc) :
    loadHistorical (saveHistorical (some ex) inc) = mergePath ex inc := by
  have hincnd : (tsList inc).Nodup :=
    List.pairwise_map.mpr (hsorted.imp fun h => ne_of_lt h)
  have hfast : saveHistorical (some ex) inc = some inc := by
    obtain ⟨e0, er, rfl⟩ := List.exists_cons_of_ne_nil hex
    simp only [saveHistorical, if_neg hinc]
    rw [if_pos hcov]
  have hmp : mergePath ex inc = inc := by
    unfold mergePath
    rw [dropDup_append_of_ts_subset
      (fun b hb => hsub b.timestamp (List.mem_map_of_mem Bar.timestamp hb))]
    rw [dropDup_eq_self_of_nodup hincnd]
    exact sortByTs_eq_self (hsorted.imp le_of_lt)
  rw [hfast, hmp]
  rfl

/-- Witness for `c3_fast_path_agrees`: existing `[2]`, incoming
`[1, 2, 3]` with the existing timestamp present in the incoming batch. -/
theorem c3_fast_path_agrees_witness :
    (∀ t ∈ tsList [(⟨2, 5, 5, 5, 5, 5⟩ : Bar)],
      t ∈ tsList [(⟨1, 0, 0, 0, 0, 0⟩ : Bar), ⟨2, 9, 9, 9, 9, 9⟩, ⟨3, 0, 0, 0, 0, 0⟩]) ∧
    loadHistorical (saveHistorical (some [(⟨2, 5, 5, 5, 5, 5⟩ : Bar)])
        [⟨1, 0, 0, 0, 0, 0⟩, ⟨2, 9, 9, 9, 9, 9⟩, ⟨3, 0, 0, 0, 0, 0⟩])
      = mergePath [(⟨2, 5, 5, 5, 5, 5⟩ : Bar)]
        [⟨1, 0, 0, 0, 0, 0⟩, ⟨2, 9, 9, 9, 9, 9⟩, ⟨3, 0, 0, 0, 0, 0⟩] :=
  ⟨by decide, c3_fast_path_agrees _ _ (by decide) (by decide) (by decide) (by decide)
    ⟨by decide, by decide⟩⟩

/-- Claim C4 (confirmed): `check_data_gaps` walks the range in steps of
the timeframe duration and returns exactly one gap `(c, c + dur)` per
step `c` containing no stored timestamp (the `filterMap`
characterization below); with no stored series at all it returns the
single gap `(s, e)` spanning the whole range; the gaps come out in
strictly ascending order; and on a 1-minute series with bars at
09:15:00 and 09:17:00 (seconds of day 33300 and 33420) over
09:15:00-09:18:00 it returns exactly the gap 09:16:00-09:17:00. -/
theorem c4_check_data_gaps :
    (∀ (ts : List Nat) (s e dur : Nat),
      checkDataGaps (Except.ok (ts.map some)) s e dur =
        if ts = [] then [(s, e)]
        else (stepStarts (e - s) s e dur).filterMap fun c =>
          if ts.any (fun t => decide (c ≤ t) && decide (t < c + dur)) then none
          else some (c, c + dur)) ∧
    (∀ (ts : List Nat) (s e dur : Nat), 0 < dur →
      List.Pairwise (fun a b => (a : Gap).1 < b.1)
        (checkDataGaps (Except.ok (ts.map some)) s e dur)) ∧
    checkDataGaps (Except.ok [some 33300, some 33420]) 33300 33480 60
      = [(33360, 33420)] := by
  have hmain : ∀ (ts : List Nat) (s e dur : Nat),
      checkDataGaps (Except.ok (ts.map some)) s e dur =
        if ts = [] then [(s, e)]
        else (stepStarts (e - s) s e dur).filterMap fun c =>
          if ts.any (fun t => decide (c ≤ t) && decide (t < c + dur)) then none
          else some (c, c + dur) := by
    intro ts s e dur
    by_cases h : ts = []
    · subst h; rfl
    · have hne : ts.map some ≠ [] := by simpa using h
      have hid : (ts.map some).filterMap id = ts := by simp
      simp only [checkDataGaps]
      rw [if_neg hne]
      rw [if_neg (by simp : ¬ ((ts.map some).any Option.isNone = true))]
      rw [hid, if_neg h]
      exact gapWalk_eq_filterMap ts dur (e - s) s e
  refine ⟨hmain, ?_, by decide⟩
  intro ts s e dur hdur
  rw [hmain]
  by_cases h : ts = []
  · rw [if_pos h]
    exact List.pairwise_singleton _ _
  · rw [if_neg h]
    apply pairwise_fst_filterMap
    · intro c p hp
      split_ifs at hp
      exact (Option.some.inj hp) ▸ rfl
    · exact stepStarts_pairwise hdur (e - s) s

/-- Witness for `c4_check_data_gaps` on the 1-minute scenario series. -/
theorem c4_check_data_gaps_witness :
    (0 : Nat) < 60 ∧
    List.Pairwise (fun a b => (a : Gap).1 < b.1)
      (checkDataGaps (Except.ok ([33300, 33420].map some)) 33300 33480 60) :=
  ⟨by decide, c4_check_data_gaps.2.1 [33300, 33420] 33300 33480 60 (by decide)⟩

/-- Claim C10 (confirmed): `check_data_gaps` never lets a failure
escape: when the surrounding `try` raises, when the loaded series is
empty, or when any stored timestamp fails to parse, it returns the
whole requested range as the single gap `(s, e)`. -/
theorem c10_gaps_error_fallback (load : Except Unit (List (Option Nat))) (s e dur : Nat)
    (h : load = Except.error () ∨ load = Except.ok [] ∨
      ∃ rows, load = Except.ok rows ∧ rows.any Option.isNone = true) :
    checkDataGaps load s e dur = [(s, e)] := by
  rcases h with h | h | ⟨rows, h, hrows⟩
  · subst h; rfl
  · subst h; rfl
  · subst h
    simp only [checkDataGaps]
    by_cases h2 : rows = []
    · rw [if_pos h2]
    · rw [if_neg h2, if_pos hrows]

/-- Witness for `c10_gaps_error_fallback` at a raised exception. -/
theorem c10_gaps_error_fallback_witness :
    checkDataGaps (Except.error ()) 0 100 60 = [(0, 100)] :=
  c10_gaps_error_fallback (Except.error ()) 0 100 60 (Or.inl rfl)

/-- Claim C6 (counterexample): a 250-day request does not produce 3
chunks covering the full range — `fetch_historical_data` first caps the
lookback at 100 days and then chunks by 60 days, so it issues exactly 2
requests and the last chunk ends at 100 days, not 250. -/
theorem c6_counterexample :
    fetchPeriods 250 = [(0, 5184000), (5184001, 8640000)] ∧
    (fetchPeriods 250).length = 2 ∧
    ¬ (fetchPeriods 250).length = 3 ∧
    ¬ ((fetchPeriods 250).getLast?.map Prod.snd = some (250 * daySecs)) := by decide

/-- Claim C6 (amended): `fetch_historical_data` caps the lookback at
100 days, then splits the capped range `[0, min lookback 100 days]`
(seconds from `from_date`) into consecutive chunks: the first starts at
the range start, each spans at most 60 days, each subsequent chunk
starts one second after the previous chunk ends (no gap, no overlap at
second granularity), and the last ends exactly at the capped range end;
a 250-day request therefore produces exactly 2 sequential chunks. -/
theorem c6_chunking (lookback : Nat) :
    (fetchPeriods lookback).head? = some (0, min chunkSpan (min lookback 100 * daySecs)) ∧
    ((fetchPeriods lookback).getLast?.map Prod.snd) = some (min lookback 100 * daySecs) ∧
    List.Chain' (fun a b => (b : Nat × Nat).1 = a.2 + 1) (fetchPeriods lookback) ∧
    (∀ p ∈ fetchPeriods lookback, p.1 ≤ p.2 ∧ p.2 ≤ p.1 + chunkSpan) ∧
    (fetchPeriods 250).length = 2 := by
  have h := chunkLoop_spec (min lookback 100 * daySecs + 1)
    0 (min lookback 100 * daySecs) (Nat.zero_le _) (by omega)
  exact ⟨by simpa using h.1, h.2.1, h.2.2.1, h.2.2.2, by decide⟩

/-- Witness for `c6_chunking` at the first chunk of the 250-day
request. -/
theorem c6_chunking_witness :
    ((0, 5184000) : Nat × Nat) ∈ fetchPeriods 250 ∧
    (0 : Nat) ≤ 5184000 ∧ 5184000 ≤ 0 + chunkSpan := by
  have h := (c6_chunking 250).2.2.2.1 (0, 5184000) (by decide)
  exact ⟨by decide, h.1, h.2⟩

/-- Claim C7 (counterexample): when the concatenated chunk responses
contain no duplicate timestamp, `fetch_historical_data` returns them
exactly as fetched — here `[2, 1]`, which is not sorted ascending. -/
theorem c7_counterexample :
    postprocessCandles [⟨2, 0, 0, 0, 0, 0⟩, ⟨1, 0, 0, 0, 0, 0⟩]
      = [⟨2, 0, 0, 0, 0, 0⟩, ⟨1, 0, 0, 0, 0, 0⟩] ∧
    ¬ List.Pairwise (fun u v => u.timestamp < v.timestamp)
      (postprocessCandles [⟨2, 0, 0, 0, 0, 0⟩, ⟨1, 0, 0, 0, 0, 0⟩]) := by decide

/-- Claim C7 (amended): the candle list returned by
`fetch_historical_data` never contains two entries with equal
timestamps, its timestamps are those of the fetched candles, every
returned row is a fetched row, and for any timestamp that appeared more
than once the LATEST-fetched row survives (`keep="last"`): every row
not followed by a later row with the same timestamp is in the result —
together with uniqueness of keys this makes the surviving row exactly
the last occurrence.  The result is sorted strictly ascending whenever
the concatenated responses did contain a duplicate timestamp (with no
duplicate, the rows are returned in fetch order, which need not be
sorted). -/
theorem c7_postprocess (cs : List Bar) :
    (tsList (postprocessCandles cs)).Nodup ∧
    (∀ t, t ∈ tsList (postprocessCandles cs) ↔ t ∈ tsList cs) ∧
    (∀ b ∈ postprocessCandles cs, b ∈ cs) ∧
    (∀ (l₁ l₂ : List Bar) (b : Bar), cs = l₁ ++ b :: l₂ →
      b.timestamp ∉ tsList l₂ → b ∈ postprocessCandles cs) ∧
    (hasDupTs cs = true →
      List.Pairwise (fun u v => u.timestamp < v.timestamp) (postprocessCandles cs)) := by
  unfold postprocessCandles
  by_cases h : hasDupTs cs = true
  · rw [if_pos h]
    have hperm := (perm_sortByTs (dropDupKeepLast cs)).map Bar.timestamp
    have hnd : (tsList (sortByTs (dropDupKeepLast cs))).Nodup :=
      hperm.nodup_iff.mpr nodup_ts_dropDup
    refine ⟨hnd, ?_, ?_, ?_, ?_⟩
    · intro t
      rw [show tsList (sortByTs (dropDupKeepLast cs))
            = (sortByTs (dropDupKeepLast cs)).map Bar.timestamp from rfl]
      rw [hperm.mem_iff]
      exact ts_mem_dropDup
    · intro b hb
      exact dropDup_subset ((perm_sortByTs (dropDupKeepLast cs)).mem_iff.mp hb)
    · intro l₁ l₂ b hcs hnot
      apply (perm_sortByTs (dropDupKeepLast cs)).mem_iff.mpr
      rw [hcs]
      exact mem_dropDup_of_last_occurrence hnot l₁
    · intro _
      exact pairwise_lt_of_le_nodup (pairwise_le_sortByTs _) hnd
  · rw [if_neg h]
    have h2 : hasDupTs cs = false := by
      revert h; cases hasDupTs cs <;> simp
    refine ⟨nodup_of_not_hasDup h2, fun t => Iff.rfl, fun b hb => hb, ?_, fun hc => absurd hc h⟩
    intro l₁ l₂ b hcs _
    rw [hcs]
    exact List.mem_append_right l₁ (List.mem_cons_self b l₂)

/-- The duplicated candle batch of the C7 witness: timestamp 5 appears
twice with different OHLCV payloads, so keep-first and keep-last give
different results. -/
def c7Dup : List Bar := [⟨5, 1, 1, 1, 1, 1⟩, ⟨5, 2, 2, 2, 2, 2⟩, ⟨3, 0, 0, 0, 0, 0⟩]

/-- Witness for `c7_postprocess` on a batch with a duplicated
timestamp: the LATER of the two rows at timestamp 5 (payload 2)
survives into the returned list, which is sorted ascending. -/
theorem c7_postprocess_witness :
    hasDupTs c7Dup = true ∧
    (⟨5, 2, 2, 2, 2, 2⟩ : Bar) ∈ postprocessCandles c7Dup ∧
    List.Pairwise (fun u v => u.timestamp < v.timestamp) (postprocessCandles c7Dup) :=
  ⟨by decide,
   (c7_postprocess c7Dup).2.2.2.1 [⟨5, 1, 1, 1, 1, 1⟩] [⟨3, 0, 0, 0, 0, 0⟩]
     ⟨5, 2, 2, 2, 2, 2⟩ (by decide) (by decide),
   (c7_postprocess c7Dup).2.2.2.2 (by decide)⟩
